import Mathlib

/-
Verification of the `tisk` compilation-unit planner and import-specifier
rewriter (src/lib/cli.js, function `compile` and its inner `updateImport`
transformer).

Embedding conventions:
- The model is posix (`path.sep` is '/'), JS strings are `List Char`.
- An absolute, normalized path (everything produced by `path.resolve`,
  `path.join`, `path.dirname` on resolved inputs) is represented as its list
  of segments (`Path := List (List Char)`): "/s/a.ts" is [['s'], "a.ts"].
  `renderAbs` recovers the JS string of such a path; the string-level
  operations the source performs (startsWith-based prefix matching,
  sorting with a trailing separator, first-character tests on specifier
  text, splitting specifier text on '/') are modelled at the character
  level on the rendered strings, exactly as the source does them.
- Node's path functions, applied by the source only to absolute normalized
  paths, are modelled segment-wise: `path.dirname` drops the last segment,
  `path.basename` is the last segment, `path.join(base, rel)` folds the
  segments of `rel` over `base` (skipping "" and ".", popping on ".."),
  `path.relative(from, to)` emits "up" segments past the common prefix and
  then the remainder of `to`.
- The TypeScript engine (`ts.createProgram`, diagnostics, emit) is a black
  box; the whole-program diagnostics pass is represented by the list of its
  diagnostics' classifications (true = classified as error), mirroring the
  counting loop of `processDiagnostics`. Filesystem effects are represented
  as an explicit event trace (`Event`): engine invocation, `fs.mkdir`
  calls and output-file writes, in program order; `glob` is an oracle
  parameter `fs : Path → List Path` giving a directory root's source files.
-/

namespace Tisk

/-- A path segment (a JS string without '/'), as a list of characters. -/
abbrev Seg := List Char

/-- An absolute normalized path, as its list of segments. -/
abbrev Path := List Seg

/-- Characters of a string literal. -/
def str (s : String) : List Char := s.data

/-- Splitting helper: accumulates the current segment (reversed). -/
def splitSlashGo (cur : List Char) : List Char → List (List Char)
  | [] => [cur.reverse]
  | c :: rest => if c = '/' then cur.reverse :: splitSlashGo [] rest else splitSlashGo (c :: cur) rest

/-- Split a JS string on '/', as Node's path functions do to interpret a
specifier's segments ("a/b" becomes ["a", "b"], "./x" becomes [".", "x"]). -/
def splitSlash (l : List Char) : List (List Char) := splitSlashGo [] l

/-- Segments of an absolute path literal written with '/' separators
(leading '/' and empty segments dropped); convenience for concrete inputs. -/
def strp (s : String) : Path := (splitSlash s.data).filter (fun t => !t.isEmpty)

/-- Render the segments of a nonempty absolute path: each segment is
preceded by '/'. -/
def rend : Path → List Char
  | [] => []
  | s :: ss => '/' :: s ++ rend ss

/-- The JS string of an absolute path (the root path renders as "/"). -/
def renderAbs (p : Path) : List Char := if p = [] then ['/'] else rend p

/-- The JS string of a relative path: segments joined with '/'. -/
def renderRel : List Seg → List Char
  | [] => []
  | [s] => s
  | s :: rest => s ++ '/' :: renderRel rest

/-- Model of `path.dirname` on an absolute normalized path. -/
def dirname (p : Path) : Path := p.dropLast

/-- Model of `path.basename` on an absolute normalized path (the basename of
the root path "/" is ""). -/
def lastSeg (p : Path) : Seg := p.getLast?.getD []

/-- Helper for `extnameStr`: on the reversed basename, the reversed
extension up to and including the last '.', if any. -/
def takeToDot : List Char → Option (List Char)
  | [] => none
  | c :: rest => if c = '.' then some [c] else (takeToDot rest).map (fun t => c :: t)

/-- Model of `path.extname` on a basename: the suffix from the last '.',
empty when there is no '.' or the only '.' is the leading character
(dotfiles), and empty on "..". -/
def extnameStr (b : Seg) : Seg :=
  if b = str ".." then []
  else
    match takeToDot b.reverse with
    | none => []
    | some e => if e.length = b.length then [] else e.reverse

/-- Model of `path.extname` on an absolute path (it only inspects the
basename). -/
def extnamePath (p : Path) : Seg := extnameStr (lastSeg p)

/-- String concatenation onto a path, as in `importee + ".ts"` or
`baseOutFile + ".js"`: appends to the final segment ("/" + e becomes "/e"). -/
def addExt : Path → List Char → Path
  | [], e => [[] ++ e]
  | [s], e => [s ++ e]
  | s :: rest, e => s :: addExt rest e

/-- Model of `path.basename(file, path.extname(file))`: the basename with
its extension removed. -/
def stripExtSeg (b : Seg) : Seg := b.take (b.length - (extnameStr b).length)

/-- One step of `path.join`/`path.normalize` segment processing: empty and
"." segments are dropped, ".." pops (staying at the root), anything else is
appended. -/
def joinStep (acc : Path) (s : Seg) : Path :=
  if s = [] ∨ s = str "." then acc
  else if s = str ".." then acc.dropLast
  else acc ++ [s]

/-- Model of `path.join(base, rel)` (and of resolving a relative specifier
against a directory): fold the relative segments over the absolute base. -/
def joinRel (base : Path) (segs : List Seg) : Path := segs.foldl joinStep base

/-- Length of the common segment prefix of two absolute paths. -/
def commonLen : Path → Path → Nat
  | x :: xs, y :: ys => if x = y then commonLen xs ys + 1 else 0
  | _, _ => 0

/-- Model of `path.relative(a, b)` on absolute normalized paths: go up past
the common prefix, then down the remainder of `b`. -/
def relative (a b : Path) : List Seg :=
  List.replicate (a.length - commonLen a b) (str "..") ++ b.drop (commonLen a b)

/-- Model of `String.prototype.startsWith`: is the first list a prefix of
the second. -/
def isPre {α : Type} [DecidableEq α] : List α → List α → Bool
  | [], _ => true
  | _ :: _, [] => false
  | a :: as, b :: bs => if a = b then isPre as bs else false

/-- Model of the JS string comparison used by `Array.prototype.sort()`
without a comparator (lexicographic by code unit): strictly-less test. -/
def jsLt : List Char → List Char → Bool
  | [], [] => false
  | [], _ :: _ => true
  | _ :: _, [] => false
  | a :: as, b :: bs => if a < b then true else if b < a then false else jsLt as bs

/-- Non-strict JS string comparison. -/
def jsLe (a b : List Char) : Bool := !(jsLt b a)

/-- Model of line 291, `(importee + path.sep).startsWith(from + path.sep)`:
the path-map prefix test, done on the rendered strings with a trailing
separator appended to both sides. -/
def matchStr (f imp : Path) : Bool := isPre (renderAbs f ++ ['/']) (renderAbs imp ++ ['/'])

/-- Lookup in a JS object used as a string-keyed map of paths (`files`,
`directories`); assoc-list model, first binding wins (bindings for the same
key are overwrites, prepended). -/
def lookupA : List (Path × Path) → Path → Option Path
  | [], _ => none
  | kv :: rest, q => if kv.1 = q then some kv.2 else lookupA rest q

/-- The per-invocation context the `updateImport` transformer closes over:
the file map, the directory map, and the path-map table in its scan order
(descending by key string, as built at lines 185-196). -/
structure Ctx where
  files : List (Path × Path)
  directories : List (Path × Path)
  pathMap : List (Path × Path)
deriving DecidableEq

/-- Line 276: the importee path, `path.join(path.dirname(filename), token.text)`. -/
def importeeOf (fn : Path) (spec : List Char) : Path := joinRel (dirname fn) (splitSlash spec)

/-- Lines 277-288: the importee's output location when it is in the compiled
set — its mapped output directory when the importee is a known input
directory, else the output directory of `importee + ".ts"` (tried first) or
`importee + ".tsx"`, joined with the importee's basename. -/
def importeeTarget (ctx : Ctx) (imp : Path) : Option Path :=
  match lookupA ctx.directories imp with
  | some d => some d
  | none =>
    match (lookupA ctx.files (addExt imp (str ".ts"))).orElse
        (fun _ => lookupA ctx.files (addExt imp (str ".tsx"))) with
    | some od => some (joinRel od [lastSeg imp])
    | none => none

/-- Lines 298-300: turn the computed relative path `p` into the emitted
string literal. An empty string is falsy, so the token is left unchanged
(`none`); otherwise './' is prefixed unless the string already starts with
'.', and separators are already '/' in the posix model. -/
def mkLit (p : List Seg) : Option (List Char) :=
  let s := renderRel p
  if s = [] then none
  else some (if s.head? = some '.' then s else '.' :: '/' :: s)

/-- The relative path `p` computed by `updateImport` (lines 281-297) for a
string-literal specifier, `none` when no strategy assigns one: non-relative
specifiers are skipped, then the compiled-set target is tried, then the
path-map table is scanned in order for the first entry whose prefix
matches. -/
def computedPath (ctx : Ctx) (fn : Path) (spec : List Char) : Option (List Seg) :=
  if spec.head? = some '.' then
    let iod := (lookupA ctx.files fn).getD []
    let imp := importeeOf fn spec
    match importeeTarget ctx imp with
    | some tgt => some (relative iod tgt)
    | none =>
      (ctx.pathMap.find? (fun ft => matchStr ft.1 imp)).map
        (fun ft => relative iod (joinRel ft.2 (relative ft.1 imp)))
  else none

/-- Lines 270-301, the `updateImport` visitor on a string-literal specifier
token: `none` means the token is returned unchanged, `some lit` means it is
replaced by the literal `lit`. `fn` is the (normalized) file being emitted;
it is always a key of the file map, since the program only emits files of
the plan. -/
def updateImport (ctx : Ctx) (fn : Path) (spec : List Char) : Option (List Char) :=
  (computedPath ctx fn spec).bind mkLit

/-- Resolution of a specifier string against a directory (what a module
loader does with a relative specifier once the file lives in `base`). -/
def resolveSpec (base : Path) (spec : List Char) : Path := joinRel base (splitSlash spec)

instance {ε α : Type} [DecidableEq ε] [DecidableEq α] : DecidableEq (Except ε α) := fun a b =>
  match a, b with
  | .error e, .error f => if h : e = f then .isTrue (by rw [h]) else .isFalse (by simp [h])
  | .ok x, .ok y => if h : x = y then .isTrue (by rw [h]) else .isFalse (by simp [h])
  | .error _, .ok _ => .isFalse (by simp)
  | .ok _, .error _ => .isFalse (by simp)

/-- A planning error thrown inside the input loop (lines 224-236). -/
inductive PlanError where
  | duplicate (f : Path)
  | overwrite (f : Path)
deriving DecidableEq

/-- One discovered compilable file together with its originating root's
directory and whether that root was a directory root. -/
structure Contrib where
  rootDir : Path
  file : Path
  isDir : Bool
deriving DecidableEq

/-- The accumulation maps of the planning loop: input file to output
directory, input directory to output directory, output directory to the
basenames claimed in it. -/
structure PlanState where
  files : List (Path × Path)
  directories : List (Path × Path)
  basenames : List (Path × List Seg)
deriving DecidableEq

/-- Line 228: a contribution's output directory,
`path.join(options.outDir, path.relative(rootDir, path.dirname(f)))`. -/
def outDirOf (outRoot : Path) (c : Contrib) : Path :=
  joinRel outRoot (relative c.rootDir (dirname c.file))

/-- The basenames already claimed in an output directory (empty when the
directory has no entry yet). -/
def bnGet : List (Path × List Seg) → Path → List Seg
  | [], _ => []
  | kv :: rest, q => if kv.1 = q then kv.2 else bnGet rest q

/-- Claim a basename in an output directory. -/
def bnAdd : List (Path × List Seg) → Path → Seg → List (Path × List Seg)
  | [], q, b => [(q, [b])]
  | kv :: rest, q, b => if kv.1 = q then (kv.1, b :: kv.2) :: rest else kv :: bnAdd rest q b

/-- Lines 224-235, one iteration of the planning loop: fail on a duplicate
input file, fail when the file's basename is already claimed in its output
directory, otherwise record the file (and, for directory roots, its
directory). -/
def planStep (outRoot : Path) (st : PlanState) (c : Contrib) : Except PlanError PlanState :=
  if (lookupA st.files c.file).isSome then .error (.duplicate c.file)
  else
    let od := outDirOf outRoot c
    let bn := lastSeg c.file
    if bn ∈ bnGet st.basenames od then .error (.overwrite c.file)
    else .ok
      { files := st.files ++ [(c.file, od)]
        directories := if c.isDir then (dirname c.file, od) :: st.directories else st.directories
        basenames := bnAdd st.basenames od bn }

/-- The collision key of a contribution: its output directory and its
source basename. -/
def planKey (outRoot : Path) (c : Contrib) : Path × Seg :=
  (outDirOf outRoot c, lastSeg c.file)

/-- A collision key is claimed in the planning state. -/
def pairMem (st : PlanState) (k : Path × Seg) : Prop := k.2 ∈ bnGet st.basenames k.1

/-- The planning loop over the contributions, failing fast. -/
def planFold (outRoot : Path) : PlanState → List Contrib → Except PlanError PlanState
  | st, [] => .ok st
  | st, c :: cs =>
    match planStep outRoot st c with
    | .error e => .error e
    | .ok st2 => planFold outRoot st2 cs

/-- Lines 209-223, classification of an input path: a `File` root exactly
when `[".ts", "tsx"].includes(path.extname(p))` (note the source's literal
list), else a `Directory` root. -/
def isFileRoot (p : Path) : Bool :=
  if extnamePath p = str ".ts" then true
  else if extnamePath p = str "tsx" then true
  else false

/-- The flattened contributions of the input paths in processing order: a
file root contributes itself with its containing directory as root, a
directory root contributes the glob results beneath it (`fs` is the glob
oracle). -/
def contribs (paths : List Path) (fs : Path → List Path) : List Contrib :=
  paths.flatMap (fun p =>
    if isFileRoot p then [⟨dirname p, p, false⟩]
    else (fs p).map (fun f => ⟨p, f, true⟩))

/-- The whole planning phase (lines 209-236): fold the contributions from
the empty maps. -/
def planPaths (paths : List Path) (outRoot : Path) (fs : Path → List Path) :
    Except PlanError PlanState :=
  planFold outRoot ⟨[], [], []⟩ (contribs paths fs)

/-- Ascending insertion into a list sorted by the JS string order. -/
def insertOne (x : List Char) : List (List Char) → List (List Char)
  | [] => [x]
  | y :: ys => if jsLe x y then x :: y :: ys else y :: insertOne x ys

/-- Model of `Array.prototype.sort()` on strings (default comparator:
lexicographic by code unit; any sort is observationally identical since
equal keys are identical strings). -/
def sortJs : List (List Char) → List (List Char)
  | [] => []
  | x :: xs => insertOne x (sortJs xs)

/-- Lines 247-251, the skip scan: a directory is not created when the next
sorted entry starts with it (its descendants follow it immediately in the
sorted order). -/
def keepDirs : List (List Char) → List (List Char)
  | [] => []
  | [d] => [d]
  | d :: e :: rest => if isPre d e then keepDirs (e :: rest) else d :: keepDirs (e :: rest)

/-- Lines 244-251, the Directory Materializer: append `path.sep` to every
output directory, sort, and keep only the entries whose successor is not a
descendant; the result is the list of `fs.mkdir(dir, {recursive: true})`
calls issued, in order. -/
def materialize (dirs : List (List Char)) : List (List Char) :=
  keepDirs (sortJs (dirs.map (fun d => d ++ ['/'])))

/-- An observable effect of `compile` after planning: invoking the engine
(`ts.createProgram`), a directory-creation call, an output-file write. -/
inductive Event where
  | engine
  | mkdir (d : List Char)
  | write (p : Path)
deriving DecidableEq

/-- The warning/error counts returned by `processDiagnostics`. -/
structure Counts where
  warnings : Nat
  errors : Nat
deriving DecidableEq

/-- The counting loop of `processDiagnostics` over the pre-emit
diagnostics, given each diagnostic's classification (true = error); the
classification itself is the out-of-scope collaborator. -/
def processDiags (diags : List Bool) : Counts :=
  ⟨(diags.filter (fun b => !b)).length, (diags.filter (fun b => b)).length⟩

/-- Line 306: declaration-only inputs are skipped by the emission loop. -/
def endsWithDts (f : Path) : Bool := isPre (str ".d.ts").reverse (lastSeg f).reverse

/-- Lines 308-313: the emitted script path for an input file,
`path.join(outDir, path.basename(file, path.extname(file))) + ".js"`. -/
def jsFileOf (f od : Path) : Path := addExt (joinRel od [stripExtSeg (lastSeg f)]) (str ".js")

/-- The directory-creation calls of a successful plan, from
`Object.values(files)`. -/
def mkdirEvents (st : PlanState) : List Event :=
  (materialize (st.files.map (fun kv => renderAbs kv.2))).map Event.mkdir

/-- The output writes of the emission loop, one per non-declaration input
file in file-map insertion order (the script write; the optional source-map
and declaration artifacts are written at the same point and are elided). -/
def writeEvents (st : PlanState) : List Event :=
  (st.files.filter (fun kv => !endsWithDts kv.1)).map
    (fun kv => Event.write (jsFileOf kv.1 kv.2))

/-- Lines 209-351, the `compile` pipeline as a result plus effect trace: a
planning error aborts with no effects; otherwise the engine runs, the
diagnostics are counted, and a nonzero error count returns the counts
before any directory creation or write. -/
def compileModel (paths : List Path) (outRoot : Path) (fs : Path → List Path)
    (diags : List Bool) : Except PlanError (Counts × List Event) :=
  match planPaths paths outRoot fs with
  | .error e => .error e
  | .ok st =>
    let count := processDiags diags
    if count.errors = 0 then .ok (count, Event.engine :: (mkdirEvents st ++ writeEvents st))
    else .ok (count, [Event.engine])

/-- A well-formed segment of an absolute normalized path: nonempty, no
separator, not "." or "..". -/
abbrev WfSeg (s : Seg) : Prop := s ≠ [] ∧ '/' ∉ s ∧ s ≠ str "." ∧ s ≠ str ".."

/-- A well-formed absolute normalized path. -/
abbrev WfPath (p : Path) : Prop := ∀ s ∈ p, WfSeg s

/-- Well-formedness of a rewriter context: every key and value is an
absolute normalized path (as `path.resolve`/`path.join` produce), and
path-map prefixes are not the bare root. -/
abbrev WfCtx (ctx : Ctx) : Prop :=
  (∀ kv ∈ ctx.files, WfPath kv.1 ∧ WfPath kv.2) ∧
  (∀ kv ∈ ctx.directories, WfPath kv.1 ∧ WfPath kv.2) ∧
  (∀ kv ∈ ctx.pathMap, (WfPath kv.1 ∧ WfPath kv.2) ∧ kv.1 ≠ [])

instance (ctx : Ctx) : Decidable (WfCtx ctx) :=
  @instDecidableAnd _ _
    (@List.decidableBAll _ _ (fun _ => instDecidableAnd) ctx.files)
    (@instDecidableAnd _ _
      (@List.decidableBAll _ _ (fun _ => instDecidableAnd) ctx.directories)
      (@List.decidableBAll _ _ (fun _ => instDecidableAnd) ctx.pathMap))

/-- The path-map table in its scan order: strictly descending by the JS
string order of the rendered `from` keys, as `Object.keys(...).sort().reverse()`
produces for the distinct keys of the normalized map. -/
abbrev PmSortedDesc (pm : List (Path × Path)) : Prop :=
  List.Pairwise (fun x y => jsLt (renderAbs y.1) (renderAbs x.1) = true) pm

theorem splitSlashGo_sep (cur l : List Char) :
    splitSlashGo cur ('/' :: l) = cur.reverse :: splitSlashGo [] l := by
  simp [splitSlashGo]

theorem splitSlashGo_seg (s : List Char) (h : '/' ∉ s) (cur l : List Char) :
    splitSlashGo cur (s ++ l) = splitSlashGo (s.reverse ++ cur) l := by
  induction s generalizing cur with
  | nil => simp
  | cons c s' ih =>
    have hc : c ≠ '/' := fun hh => h (hh ▸ List.mem_cons_self c s')
    have h' : '/' ∉ s' := fun hh => h (List.mem_cons_of_mem c hh)
    rw [List.cons_append,
      show splitSlashGo cur (c :: (s' ++ l)) = splitSlashGo (c :: cur) (s' ++ l) from by
        simp [splitSlashGo, hc],
      ih h' (c :: cur)]
    simp

theorem renderRel_cons2 (s s2 : Seg) (r : List Seg) :
    renderRel (s :: s2 :: r) = s ++ '/' :: renderRel (s2 :: r) := rfl

theorem splitSlash_renderRel (p : List Seg) (hne : p ≠ []) (h : ∀ s ∈ p, '/' ∉ s) :
    splitSlash (renderRel p) = p := by
  induction p with
  | nil => exact absurd rfl hne
  | cons s rest ih =>
    cases rest with
    | nil =>
      have h2 := splitSlashGo_seg s (h s (List.mem_cons_self s _)) [] []
      simp only [List.append_nil] at h2
      show splitSlashGo [] (renderRel [s]) = [s]
      rw [show renderRel [s] = s from rfl, h2]
      simp [splitSlashGo]
    | cons s2 r2 =>
      show splitSlashGo [] (renderRel (s :: s2 :: r2)) = s :: s2 :: r2
      rw [renderRel_cons2,
        splitSlashGo_seg s (h s (List.mem_cons_self s _)) [] _, splitSlashGo_sep]
      have := ih (by simp) (fun t ht => h t (List.mem_cons_of_mem s ht))
      simp only [splitSlash] at this
      simp [this]

theorem splitSlash_dotslash (l : List Char) :
    splitSlash ('.' :: '/' :: l) = ['.'] :: splitSlash l := by
  simp [splitSlash, splitSlashGo]

theorem splitSlashGo_no_slash (l : List Char) :
    ∀ cur, '/' ∉ cur → ∀ s ∈ splitSlashGo cur l, '/' ∉ s := by
  induction l with
  | nil =>
    intro cur hcur s hs
    simp [splitSlashGo] at hs
    subst hs
    simpa using hcur
  | cons c rest ih =>
    intro cur hcur s hs
    by_cases hc : c = '/'
    · subst hc
      rw [splitSlashGo_sep] at hs
      rcases List.mem_cons.mp hs with h1 | h2
      · subst h1; simpa using hcur
      · exact ih [] (by simp) s h2
    · rw [show splitSlashGo cur (c :: rest) = splitSlashGo (c :: cur) rest by
        simp [splitSlashGo, hc]] at hs
      exact ih (c :: cur) (by simp [hcur, Ne.symm hc]) s hs

theorem splitSlash_no_slash (l : List Char) : ∀ s ∈ splitSlash l, '/' ∉ s :=
  splitSlashGo_no_slash l [] (by simp)

theorem renderRel_eq_nil (p : List Seg) (h : ∀ s ∈ p, s ≠ []) :
    renderRel p = [] ↔ p = [] := by
  cases p with
  | nil => simp [renderRel]
  | cons s rest =>
    cases rest with
    | nil =>
      simp only [renderRel]
      have := h s (List.mem_cons_self s _)
      simp [this]
    | cons s2 r2 => simp [renderRel_cons2]

theorem joinRel_nil (b : Path) : joinRel b [] = b := rfl

theorem joinRel_cons (b : Path) (s : Seg) (ss : List Seg) :
    joinRel b (s :: ss) = joinRel (joinStep b s) ss := rfl

theorem joinStep_dot (b : Path) : joinStep b (str ".") = b := by
  simp [joinStep]

theorem joinStep_empty (b : Path) : joinStep b [] = b := by
  simp [joinStep]

theorem joinStep_dd (b : Path) : joinStep b (str "..") = b.dropLast := by
  simp [joinStep, str]

theorem joinStep_plain (b : Path) (s : Seg) (h1 : s ≠ []) (h2 : s ≠ str ".")
    (h3 : s ≠ str "..") : joinStep b s = b ++ [s] := by
  simp [joinStep, h1, h2, h3]

theorem joinRel_append (b : Path) (x y : List Seg) :
    joinRel b (x ++ y) = joinRel (joinRel b x) y :=
  List.foldl_append _ _ _ _

theorem joinRel_plain (p : Path) (q : List Seg)
    (h : ∀ s ∈ q, s ≠ [] ∧ s ≠ str "." ∧ s ≠ str "..") : joinRel p q = p ++ q := by
  induction q generalizing p with
  | nil => simp [joinRel_nil]
  | cons s ss ih =>
    obtain ⟨h1, h2, h3⟩ := h s (List.mem_cons_self s _)
    rw [joinRel_cons, joinStep_plain p s h1 h2 h3,
      ih (p ++ [s]) (fun t ht => h t (List.mem_cons_of_mem s ht))]
    simp

theorem joinRel_replicate_dd (k : Nat) (a : Path) :
    joinRel a (List.replicate k (str "..")) = a.take (a.length - k) := by
  induction k generalizing a with
  | zero => simp [joinRel_nil]
  | succ n ih =>
    rw [List.replicate_succ, joinRel_cons, joinStep_dd, ih]
    rw [List.dropLast_eq_take, List.take_take, List.length_take]
    congr 1
    omega

theorem commonLen_le_left (a b : Path) : commonLen a b ≤ a.length := by
  induction a generalizing b with
  | nil => simp [commonLen]
  | cons x xs ih =>
    cases b with
    | nil => simp [commonLen]
    | cons y ys =>
      by_cases h : x = y
      · simp only [commonLen, if_pos h, List.length_cons]
        exact Nat.succ_le_succ (ih ys)
      · simp [commonLen, h]

theorem take_commonLen_eq (a b : Path) :
    a.take (commonLen a b) = b.take (commonLen a b) := by
  induction a generalizing b with
  | nil => simp [commonLen]
  | cons x xs ih =>
    cases b with
    | nil => simp [commonLen]
    | cons y ys =>
      by_cases h : x = y
      · subst h
        simp [commonLen, List.take_succ_cons, ih ys]
      · simp [commonLen, h]

theorem joinRel_relative (a b : Path) (hb : WfPath b) :
    joinRel a (relative a b) = b := by
  unfold relative
  rw [joinRel_append, joinRel_replicate_dd,
    Nat.sub_sub_self (commonLen_le_left a b), take_commonLen_eq a b,
    joinRel_plain _ _ ?_, List.take_append_drop]
  intro s hs
  have := hb s (List.drop_subset _ _ hs)
  exact ⟨this.1, this.2.2.1, this.2.2.2⟩

theorem relative_segs (a b : Path) (hb : WfPath b) :
    ∀ s ∈ relative a b, s ≠ [] ∧ '/' ∉ s := by
  intro s hs
  rcases List.mem_append.mp hs with h1 | h2
  · have := List.eq_of_mem_replicate h1
    subst this
    exact ⟨by simp [str], by simp [str]⟩
  · have := hb s (List.drop_subset _ _ h2)
    exact ⟨this.1, this.2.1⟩

theorem isPre_refl {α : Type} [DecidableEq α] (a : List α) : isPre a a = true := by
  induction a with
  | nil => rfl
  | cons x xs ih => simp [isPre, ih]

theorem isPre_iff_append {α : Type} [DecidableEq α] (a b : List α) :
    isPre a b = true ↔ ∃ t, b = a ++ t := by
  induction a generalizing b with
  | nil => simp [isPre]
  | cons x xs ih =>
    cases b with
    | nil => simp [isPre]
    | cons y ys =>
      by_cases h : x = y
      · subst h
        simp [isPre, ih ys]
      · constructor
        · intro hh
          simp [isPre, h] at hh
        · rintro ⟨t, ht⟩
          injection ht with h1 _
          exact absurd h1.symm h

theorem isPre_length {α : Type} [DecidableEq α] (a b : List α) (h : isPre a b = true) :
    a.length ≤ b.length := by
  obtain ⟨t, rfl⟩ := (isPre_iff_append a b).mp h
  simp

theorem isPre_iff_take {α : Type} [DecidableEq α] (a b : List α) :
    isPre a b = true ↔ b.take a.length = a := by
  constructor
  · intro h
    obtain ⟨t, rfl⟩ := (isPre_iff_append a b).mp h
    simp
  · intro h
    refine (isPre_iff_append a b).mpr ⟨b.drop a.length, ?_⟩
    conv_lhs => rw [← List.take_append_drop a.length b]
    rw [h]

theorem isPre_commonLen (a b : Path) (h : isPre a b = true) : commonLen a b = a.length := by
  induction a generalizing b with
  | nil => simp [commonLen]
  | cons x xs ih =>
    cases b with
    | nil => simp [isPre] at h
    | cons y ys =>
      by_cases hxy : x = y
      · subst hxy
        simp only [isPre, if_pos rfl] at h
        simp [commonLen, ih ys h]
      · simp [isPre, hxy] at h

theorem relative_of_isPre (a b : Path) (h : isPre a b = true) :
    relative a b = b.drop a.length := by
  unfold relative
  rw [isPre_commonLen a b h]
  simp

theorem jsLt_irrefl (a : List Char) : jsLt a a = false := by
  induction a with
  | nil => rfl
  | cons x xs ih => simp [jsLt, ih]

theorem jsLt_asymm (a b : List Char) (h : jsLt a b = true) : jsLt b a = false := by
  induction a generalizing b with
  | nil =>
    cases b with
    | nil => simp [jsLt] at h
    | cons y ys => rfl
  | cons x xs ih =>
    cases b with
    | nil => simp [jsLt] at h
    | cons y ys =>
      simp only [jsLt] at h ⊢
      rcases lt_trichotomy x y with hl | he | hg
      · simp [hl, not_lt.mpr (le_of_lt hl), ne_of_gt hl]
      · subst he
        simp only [lt_irrefl, if_false] at h ⊢
        exact ih ys h
      · simp [hg, not_lt.mpr (le_of_lt hg)] at h

theorem jsLt_connex (a b : List Char) (h1 : jsLt a b = false) (h2 : jsLt b a = false) :
    a = b := by
  induction a generalizing b with
  | nil =>
    cases b with
    | nil => rfl
    | cons y ys => simp [jsLt] at h1
  | cons x xs ih =>
    cases b with
    | nil => simp [jsLt] at h2
    | cons y ys =>
      simp only [jsLt] at h1 h2
      rcases lt_trichotomy x y with hl | he | hg
      · simp [hl] at h1
      · subst he
        simp only [lt_irrefl, if_false] at h1 h2
        rw [ih ys h1 h2]
      · simp [hg] at h2

theorem jsLt_trans (a b c : List Char) (h1 : jsLt a b = true) (h2 : jsLt b c = true) :
    jsLt a c = true := by
  induction a generalizing b c with
  | nil =>
    cases c with
    | nil =>
      cases b with
      | nil => simp [jsLt] at h1
      | cons y ys => simp [jsLt] at h2
    | cons z zs => rfl
  | cons x xs ih =>
    cases b with
    | nil => simp [jsLt] at h1
    | cons y ys =>
      cases c with
      | nil => simp [jsLt] at h2
      | cons z zs =>
        simp only [jsLt] at h1 h2 ⊢
        rcases lt_trichotomy x y with hxy | hxy | hxy
        · rcases lt_trichotomy y z with hyz | hyz | hyz
          · have := lt_trans hxy hyz
            simp [this]
          · subst hyz
            simp [hxy]
          · simp [hyz, not_lt.mpr (le_of_lt hyz)] at h2
        · subst hxy
          rcases lt_trichotomy x z with hyz | hyz | hyz
          · simp [hyz]
          · subst hyz
            simp only [lt_irrefl, if_false] at h1 h2 ⊢
            exact ih ys zs h1 h2
          · simp [hyz, not_lt.mpr (le_of_lt hyz)] at h2
        · simp [hxy, not_lt.mpr (le_of_lt hxy)] at h1

theorem jsLe_refl (a : List Char) : jsLe a a = true := by
  simp [jsLe, jsLt_irrefl]

theorem jsLe_total (a b : List Char) (h : jsLe a b = false) : jsLe b a = true := by
  simp only [jsLe, Bool.not_eq_false'] at h
  simp [jsLe, jsLt_asymm b a h]

theorem jsLe_trans (a b c : List Char) (h1 : jsLe a b = true) (h2 : jsLe b c = true) :
    jsLe a c = true := by
  simp only [jsLe, Bool.not_eq_true'] at h1 h2 ⊢
  by_contra hc
  rw [Bool.not_eq_false] at hc
  by_cases hb : jsLt b a = true
  · rw [hb] at h1; exact absurd h1 (by simp)
  · rw [Bool.not_eq_true] at hb
    by_cases hcb : jsLt c b = true
    · rw [hcb] at h2; exact absurd h2 (by simp)
    · rw [Bool.not_eq_true] at hcb
      have hab := jsLt_connex b a hb (by
        by_contra hab
        rw [Bool.not_eq_false] at hab
        have := jsLt_trans c a b hc hab
        rw [this] at hcb
        exact absurd hcb (by simp))
      subst hab
      rw [hc] at hcb
      exact absurd hcb (by simp)

theorem isPre_jsLt (a b : List Char) (h : isPre a b = true) (hne : a ≠ b) :
    jsLt a b = true := by
  induction a generalizing b with
  | nil =>
    cases b with
    | nil => exact absurd rfl hne
    | cons y ys => rfl
  | cons x xs ih =>
    cases b with
    | nil => simp [isPre] at h
    | cons y ys =>
      by_cases hxy : x = y
      · subst hxy
        simp only [isPre, if_pos rfl] at h
        have hne2 : xs ≠ ys := fun hh => hne (by rw [hh])
        simp [jsLt, ih ys h hne2]
      · simp [isPre, hxy] at h

theorem isPre_between (a t b : List Char) (h1 : jsLe a t = true) (h2 : jsLe t b = true)
    (h3 : isPre a b = true) : isPre a t = true := by
  induction a generalizing t b with
  | nil => rfl
  | cons x xs ih =>
    cases b with
    | nil => simp [isPre] at h3
    | cons y ys =>
      by_cases hxy : x = y
      · subst hxy
        simp only [isPre, if_pos rfl] at h3
        cases t with
        | nil => simp [jsLe, jsLt] at h1
        | cons z zs =>
          simp only [jsLe, Bool.not_eq_true', jsLt] at h1 h2
          rcases lt_trichotomy x z with hl | he | hg
          · rcases lt_trichotomy z x with h2l | h2e | h2g
            · exact absurd (lt_trans hl h2l) (lt_irrefl x)
            · exact absurd h2e (ne_of_gt hl)
            · simp [not_lt.mpr (le_of_lt hl), hl] at h2
          · subst he
            simp only [lt_irrefl, if_false] at h1 h2
            simp only [isPre, if_pos rfl]
            exact ih zs ys (by simp [jsLe, h1]) (by simp [jsLe, h2]) h3
          · simp [hg, not_lt.mpr (le_of_lt hg)] at h1
      · simp [isPre, hxy] at h3

theorem mem_insertOne (x a : List Char) (l : List (List Char)) :
    a ∈ insertOne x l ↔ a = x ∨ a ∈ l := by
  induction l with
  | nil => simp [insertOne]
  | cons y ys ih =>
    by_cases h : jsLe x y = true
    · simp [insertOne, h]
    · simp only [insertOne, if_neg h, List.mem_cons, ih]
      tauto

theorem mem_sortJs (a : List Char) (l : List (List Char)) : a ∈ sortJs l ↔ a ∈ l := by
  induction l with
  | nil => simp [sortJs]
  | cons x xs ih => simp [sortJs, mem_insertOne, ih]

theorem pairwise_insertOne (x : List Char) (l : List (List Char))
    (hl : List.Pairwise (fun a b => jsLe a b = true) l) :
    List.Pairwise (fun a b => jsLe a b = true) (insertOne x l) := by
  induction l with
  | nil => simp [insertOne]
  | cons y ys ih =>
    rcases List.pairwise_cons.mp hl with ⟨hy, hys⟩
    by_cases h : jsLe x y = true
    · rw [show insertOne x (y :: ys) = x :: y :: ys from by simp [insertOne, h]]
      refine List.pairwise_cons.mpr ⟨?_, hl⟩
      intro z hz
      rcases List.mem_cons.mp hz with rfl | hz2
      · exact h
      · exact jsLe_trans x y z h (hy z hz2)
    · rw [show insertOne x (y :: ys) = y :: insertOne x ys from by simp [insertOne, h]]
      refine List.pairwise_cons.mpr ⟨?_, ih hys⟩
      intro z hz
      rcases (mem_insertOne x z ys).mp hz with rfl | hz2
      · exact jsLe_total z y (by simpa using h)
      · exact hy z hz2

theorem sorted_sortJs (l : List (List Char)) :
    List.Pairwise (fun a b => jsLe a b = true) (sortJs l) := by
  induction l with
  | nil => simp [sortJs]
  | cons x xs ih => exact pairwise_insertOne x (sortJs xs) ih

theorem keepDirs_subset (l : List (List Char)) : ∀ a ∈ keepDirs l, a ∈ l := by
  induction l with
  | nil => simp [keepDirs]
  | cons d t ih =>
    cases t with
    | nil => simp [keepDirs]
    | cons e rest =>
      intro a ha
      by_cases h : isPre d e = true
      · rw [show keepDirs (d :: e :: rest) = keepDirs (e :: rest) from by
          simp [keepDirs, h]] at ha
        exact List.mem_cons_of_mem d (ih a ha)
      · rw [show keepDirs (d :: e :: rest) = d :: keepDirs (e :: rest) from by
          simp [keepDirs, h]] at ha
        rcases List.mem_cons.mp ha with rfl | ha2
        · exact List.mem_cons_self _ _
        · exact List.mem_cons_of_mem d (ih a ha2)

theorem keepDirs_anti (L : List (List Char))
    (hs : List.Pairwise (fun a b => jsLe a b = true) L) :
    ∀ a b, a ∈ keepDirs L → b ∈ L → a ≠ b → isPre a b = true → False := by
  induction L with
  | nil => simp [keepDirs]
  | cons d t ih =>
    cases t with
    | nil =>
      intro a b ha hb hne hpre
      simp only [keepDirs, List.mem_singleton] at ha hb
      exact hne (ha.trans hb.symm)
    | cons e rest =>
      rcases List.pairwise_cons.mp hs with ⟨hd, hT⟩
      intro a b ha hb hne hpre
      by_cases h : isPre d e = true
      · rw [show keepDirs (d :: e :: rest) = keepDirs (e :: rest) from by
          simp [keepDirs, h]] at ha
        rcases List.mem_cons.mp hb with rfl | hb2
        · have haT : a ∈ e :: rest := keepDirs_subset _ a ha
          have hba : jsLe b a = true := hd a haT
          have hlt : jsLt a b = true := isPre_jsLt a b hpre hne
          simp [jsLe, hlt] at hba
        · exact ih hT a b ha hb2 hne hpre
      · rw [show keepDirs (d :: e :: rest) = d :: keepDirs (e :: rest) from by
          simp [keepDirs, h]] at ha
        rcases List.mem_cons.mp ha with rfl | ha2
        · rcases List.mem_cons.mp hb with rfl | hb2
          · exact hne rfl
          · have hde : jsLe a e = true := hd e (List.mem_cons_self _ _)
            have heb : jsLe e b = true := by
              rcases List.mem_cons.mp hb2 with rfl | hb3
              · exact jsLe_refl b
              · exact (List.pairwise_cons.mp hT).1 b hb3
            exact absurd (isPre_between a e b hde heb hpre) (by simp [h])
        · rcases List.mem_cons.mp hb with rfl | hb2
          · have haT : a ∈ e :: rest := keepDirs_subset _ a ha2
            have hba : jsLe b a = true := hd a haT
            have hlt : jsLt a b = true := isPre_jsLt a b hpre hne
            simp [jsLe, hlt] at hba
          · exact ih hT a b ha2 hb2 hne hpre

theorem rend_append (a b : Path) : rend (a ++ b) = rend a ++ rend b := by
  induction a with
  | nil => simp [rend]
  | cons s ss ih => simp [rend, ih]

theorem rend_slash_cons (p : Path) : ∃ w, rend p ++ ['/'] = '/' :: w := by
  cases p with
  | nil => exact ⟨[], rfl⟩
  | cons s ss => exact ⟨s ++ (rend ss ++ ['/']), by simp [rend]⟩

theorem segSplit_pre (s t u v : List Char) (hs : '/' ∉ s) (ht : '/' ∉ t) :
    isPre (s ++ '/' :: u) (t ++ '/' :: v) = true ↔ (s = t ∧ isPre u v = true) := by
  induction s generalizing t with
  | nil =>
    cases t with
    | nil => simp [isPre]
    | cons c t2 =>
      have hc : c ≠ '/' := fun hh => ht (hh ▸ List.mem_cons_self c t2)
      simp [isPre, Ne.symm hc]
  | cons c s2 ih =>
    have hc : c ≠ '/' := fun hh => hs (hh ▸ List.mem_cons_self c s2)
    have hs2 : '/' ∉ s2 := fun hh => hs (List.mem_cons_of_mem c hh)
    cases t with
    | nil => simp [isPre, hc]
    | cons d t2 =>
      have ht2 : '/' ∉ t2 := fun hh => ht (List.mem_cons_of_mem d hh)
      by_cases hcd : c = d
      · subst hcd
        constructor
        · intro hp
          have hp2 : isPre (s2 ++ '/' :: u) (t2 ++ '/' :: v) = true := by
            simpa [isPre] using hp
          rcases (ih t2 hs2 ht2).mp hp2 with ⟨h1, h2⟩
          exact ⟨by rw [h1], h2⟩
        · rintro ⟨h1, h2⟩
          have h3 : s2 = t2 := by injection h1
          have hp2 := (ih t2 hs2 ht2).mpr ⟨h3, h2⟩
          simpa [isPre] using hp2
      · simp [isPre, hcd]

theorem coreMatch (f imp : Path) (hf : ∀ s ∈ f, s ≠ [] ∧ '/' ∉ s)
    (hi : ∀ s ∈ imp, s ≠ [] ∧ '/' ∉ s) :
    isPre (rend f ++ ['/']) (rend imp ++ ['/']) = true ↔ isPre f imp = true := by
  induction f generalizing imp with
  | nil =>
    cases imp with
    | nil => simp [rend, isPre]
    | cons t ir =>
      constructor
      · intro _
        rfl
      · intro _
        show isPre (rend [] ++ ['/']) (rend (t :: ir) ++ ['/']) = true
        simp [rend, isPre]
  | cons s fr ih =>
    rcases hf s (List.mem_cons_self s fr) with ⟨hsne, hsns⟩
    have hfr : ∀ x ∈ fr, x ≠ [] ∧ '/' ∉ x := fun x hx => hf x (List.mem_cons_of_mem s hx)
    cases imp with
    | nil =>
      simp only [rend, List.nil_append]
      constructor
      · intro hpre
        exfalso
        cases s with
        | nil => exact hsne rfl
        | cons c cs =>
          have hc : c ≠ '/' := fun hh => hsns (hh ▸ List.mem_cons_self c cs)
          simp [isPre, hc] at hpre
      · intro hpre
        simp [isPre] at hpre
    | cons t ir =>
      rcases hi t (List.mem_cons_self t ir) with ⟨htne, htns⟩
      have hir : ∀ x ∈ ir, x ≠ [] ∧ '/' ∉ x := fun x hx => hi x (List.mem_cons_of_mem t hx)
      obtain ⟨wf, hwf⟩ := rend_slash_cons fr
      obtain ⟨wi, hwi⟩ := rend_slash_cons ir
      have lhs_eq : (rend (s :: fr) ++ ['/'] : List Char) = '/' :: (s ++ '/' :: wf) := by
        simp [rend, ← hwf]
      have rhs_eq : (rend (t :: ir) ++ ['/'] : List Char) = '/' :: (t ++ '/' :: wi) := by
        simp [rend, ← hwi]
      rw [lhs_eq, rhs_eq]
      have step1 : isPre ('/' :: (s ++ '/' :: wf)) ('/' :: (t ++ '/' :: wi)) =
          isPre (s ++ '/' :: wf) (t ++ '/' :: wi) := by
        simp [isPre]
      rw [step1, segSplit_pre s t wf wi hsns htns]
      have step2 : isPre wf wi = isPre (rend fr ++ ['/']) (rend ir ++ ['/']) := by
        rw [hwf, hwi]
        simp [isPre]
      constructor
      · rintro ⟨rfl, hw⟩
        have := (ih ir hfr hir).mp (by rw [← step2]; exact hw)
        simp [isPre, this]
      · intro hp
        by_cases hst : s = t
        · subst hst
          simp only [isPre, if_pos rfl] at hp
          refine ⟨rfl, ?_⟩
          rw [step2]
          exact (ih ir hfr hir).mpr hp
        · simp [isPre, hst] at hp

theorem matchStr_iff (f imp : Path) (hf : WfPath f) (hi : WfPath imp) (hne : f ≠ []) :
    matchStr f imp = true ↔ isPre f imp = true := by
  unfold matchStr renderAbs
  rw [if_neg hne]
  cases imp with
  | nil =>
    rw [if_pos rfl]
    constructor
    · intro hpre
      exfalso
      cases f with
      | nil => exact hne rfl
      | cons s fr =>
        rcases hf s (List.mem_cons_self s fr) with ⟨hsne, hsns, -⟩
        cases s with
        | nil => exact hsne rfl
        | cons c cs =>
          have hc : c ≠ '/' := fun hh => hsns (hh ▸ List.mem_cons_self c cs)
          simp [rend, isPre, hc] at hpre
    · intro hpre
      cases f with
      | nil => exact absurd rfl hne
      | cons s fr => simp [isPre] at hpre
  | cons t ir =>
    rw [if_neg (by simp)]
    exact coreMatch f (t :: ir) (fun s hs => ⟨(hf s hs).1, (hf s hs).2.1⟩)
      (fun s hs => ⟨(hi s hs).1, (hi s hs).2.1⟩)

theorem wf_dropLast (p : Path) (h : WfPath p) : WfPath p.dropLast := by
  intro s hs
  rw [List.dropLast_eq_take] at hs
  exact h s (List.take_subset _ _ hs)

theorem wf_joinRel (base : Path) (segs : List Seg) (hb : WfPath base)
    (hs : ∀ s ∈ segs, '/' ∉ s) : WfPath (joinRel base segs) := by
  induction segs generalizing base with
  | nil => exact hb
  | cons s ss ih =>
    rw [joinRel_cons]
    refine ih (joinStep base s) ?_ (fun t ht => hs t (List.mem_cons_of_mem s ht))
    unfold joinStep
    by_cases h1 : s = [] ∨ s = str "."
    · rw [if_pos h1]; exact hb
    · rw [if_neg h1]
      by_cases h2 : s = str ".."
      · rw [if_pos h2]; exact wf_dropLast base hb
      · rw [if_neg h2]
        intro t ht
        rcases List.mem_append.mp ht with ht1 | ht2
        · exact hb t ht1
        · rw [List.mem_singleton] at ht2
          subst ht2
          push_neg at h1
          exact ⟨h1.1, hs t (List.mem_cons_self _ _), h1.2, h2⟩

theorem lastSeg_mem (p : Path) (h : p ≠ []) : lastSeg p ∈ p := by
  unfold lastSeg
  rw [List.getLast?_eq_getLast p h]
  exact List.getLast_mem h

theorem lookupA_mem (l : List (Path × Path)) (q v : Path) (h : lookupA l q = some v) :
    (q, v) ∈ l := by
  induction l with
  | nil => simp [lookupA] at h
  | cons kv rest ih =>
    by_cases hk : kv.1 = q
    · rw [show lookupA (kv :: rest) q = some kv.2 from by simp [lookupA, hk]] at h
      injection h with h2
      have heq : (q, v) = kv := by
        cases kv
        simp_all
      rw [heq]
      exact List.mem_cons_self _ _
    · rw [show lookupA (kv :: rest) q = lookupA rest q from by simp [lookupA, hk]] at h
      exact List.mem_cons_of_mem kv (ih h)

theorem wf_importeeTarget (ctx : Ctx) (imp target : Path) (hctx : WfCtx ctx)
    (himp : WfPath imp) (h : importeeTarget ctx imp = some target) : WfPath target := by
  unfold importeeTarget at h
  cases hd : lookupA ctx.directories imp with
  | some d =>
    rw [hd] at h
    injection h with h2
    subst h2
    exact (hctx.2.1 _ (lookupA_mem _ _ _ hd)).2
  | none =>
    rw [hd] at h
    cases hf : (lookupA ctx.files (addExt imp (str ".ts"))).orElse
        (fun _ => lookupA ctx.files (addExt imp (str ".tsx"))) with
    | none => rw [hf] at h; exact absurd h (by simp)
    | some od =>
      rw [hf] at h
      injection h with h2
      subst h2
      have hod : WfPath od := by
        cases hts : lookupA ctx.files (addExt imp (str ".ts")) with
        | some o1 =>
          rw [show (lookupA ctx.files (addExt imp (str ".ts"))).orElse
              (fun _ => lookupA ctx.files (addExt imp (str ".tsx"))) = some o1 from by
            rw [hts]; rfl] at hf
          injection hf with h3
          subst h3
          exact (hctx.1 _ (lookupA_mem _ _ _ hts)).2
        | none =>
          rw [show (lookupA ctx.files (addExt imp (str ".ts"))).orElse
              (fun _ => lookupA ctx.files (addExt imp (str ".tsx"))) =
              lookupA ctx.files (addExt imp (str ".tsx")) from by rw [hts]; rfl] at hf
          exact (hctx.1 _ (lookupA_mem _ _ _ hf)).2
      by_cases hie : imp = []
      · subst hie
        rw [show lastSeg ([] : Path) = [] from rfl]
        rw [show joinRel od [[]] = od from by simp [joinRel, joinStep]]
        exact hod
      · have hls := himp (lastSeg imp) (lastSeg_mem imp hie)
        rw [joinRel_plain od [lastSeg imp] (by
          intro s hsm
          rw [List.mem_singleton] at hsm
          subst hsm
          exact ⟨hls.1, hls.2.2.1, hls.2.2.2⟩)]
        intro s hsm
        rcases List.mem_append.mp hsm with h1 | h2
        · exact hod s h1
        · rw [List.mem_singleton] at h2
          subst h2
          exact hls

theorem bnGet_bnAdd_self (m : List (Path × List Seg)) (k : Path) (b : Seg) :
    bnGet (bnAdd m k b) k = b :: bnGet m k := by
  induction m with
  | nil => simp [bnAdd, bnGet]
  | cons kv rest ih =>
    by_cases h : kv.1 = k
    · simp [bnAdd, bnGet, h]
    · simp [bnAdd, bnGet, h, ih]

theorem bnGet_bnAdd_mono (m : List (Path × List Seg)) (k : Path) (b : Seg) (q : Path)
    (x : Seg) (h : x ∈ bnGet m q) : x ∈ bnGet (bnAdd m k b) q := by
  induction m with
  | nil => simp [bnGet] at h
  | cons kv rest ih =>
    by_cases hk : kv.1 = k
    · by_cases hq : kv.1 = q
      · have : bnGet (kv :: rest) q = kv.2 := by simp [bnGet, hq]
        rw [this] at h
        rw [show bnGet (bnAdd (kv :: rest) k b) q = b :: kv.2 from by
          simp [bnAdd, bnGet, hk, hk ▸ hq]]
        exact List.mem_cons_of_mem b h
      · rw [show bnGet (kv :: rest) q = bnGet rest q from by simp [bnGet, hq]] at h
        rw [show bnGet (bnAdd (kv :: rest) k b) q = bnGet rest q from by
          simp [bnAdd, bnGet, hk, hk ▸ hq]]
        exact h
    · by_cases hq : kv.1 = q
      · have hqk : ¬ q = k := by rw [← hq]; exact hk
        rw [show bnGet (kv :: rest) q = kv.2 from by simp [bnGet, hq]] at h
        rw [show bnGet (bnAdd (kv :: rest) k b) q = kv.2 from by
          simp [bnAdd, bnGet, hk, hq, hqk]]
        exact h
      · rw [show bnGet (kv :: rest) q = bnGet rest q from by simp [bnGet, hq]] at h
        rw [show bnGet (bnAdd (kv :: rest) k b) q = bnGet (bnAdd rest k b) q from by
          simp [bnAdd, bnGet, hk, hq]]
        exact ih h

theorem planStep_ok (oR : Path) (st st2 : PlanState) (c : Contrib)
    (h : planStep oR st c = .ok st2) :
    lookupA st.files c.file = none ∧ ¬ pairMem st (planKey oR c) ∧
    st2 = { files := st.files ++ [(c.file, outDirOf oR c)]
            directories :=
              if c.isDir then (dirname c.file, outDirOf oR c) :: st.directories
              else st.directories
            basenames := bnAdd st.basenames (outDirOf oR c) (lastSeg c.file) } := by
  unfold planStep at h
  by_cases h1 : (lookupA st.files c.file).isSome
  · rw [if_pos h1] at h
    exact absurd h (by simp)
  · rw [if_neg h1] at h
    by_cases h2 : lastSeg c.file ∈ bnGet st.basenames (outDirOf oR c)
    · rw [if_pos h2] at h
      exact absurd h (by simp)
    · rw [if_neg h2] at h
      injection h with h3
      refine ⟨?_, h2, h3.symm⟩
      cases hl : lookupA st.files c.file with
      | none => rfl
      | some v => rw [hl] at h1; simp at h1

theorem planStep_adds (oR : Path) (st st2 : PlanState) (c : Contrib)
    (h : planStep oR st c = .ok st2) : pairMem st2 (planKey oR c) := by
  rcases planStep_ok oR st st2 c h with ⟨-, -, rfl⟩
  unfold pairMem planKey
  rw [bnGet_bnAdd_self]
  exact List.mem_cons_self _ _

theorem planStep_mono (oR : Path) (st st2 : PlanState) (c : Contrib) (k : Path × Seg)
    (h : planStep oR st c = .ok st2) (hk : pairMem st k) : pairMem st2 k := by
  rcases planStep_ok oR st st2 c h with ⟨-, -, rfl⟩
  unfold pairMem at hk ⊢
  exact bnGet_bnAdd_mono _ _ _ _ _ hk

theorem planFold_append (oR : Path) (st : PlanState) (l1 l2 : List Contrib) :
    planFold oR st (l1 ++ l2) =
      match planFold oR st l1 with
      | .error e => .error e
      | .ok s => planFold oR s l2 := by
  induction l1 generalizing st with
  | nil => simp [planFold]
  | cons c cs ih =>
    rw [List.cons_append]
    cases hstep : planStep oR st c with
    | error e =>
      have e1 : planFold oR st (c :: (cs ++ l2)) = Except.error e := by
        simp [planFold, hstep]
      have e2 : planFold oR st (c :: cs) = Except.error e := by
        simp [planFold, hstep]
      rw [e1, e2]
    | ok s2 =>
      have e1 : planFold oR st (c :: (cs ++ l2)) = planFold oR s2 (cs ++ l2) := by
        simp [planFold, hstep]
      have e2 : planFold oR st (c :: cs) = planFold oR s2 cs := by
        simp [planFold, hstep]
      rw [e1, e2, ih s2]

theorem planFold_mono (oR : Path) (l : List Contrib) (st st2 : PlanState) (k : Path × Seg)
    (h : planFold oR st l = .ok st2) (hk : pairMem st k) : pairMem st2 k := by
  induction l generalizing st with
  | nil =>
    rw [show planFold oR st [] = .ok st from rfl] at h
    injection h with h2
    rw [← h2]
    exact hk
  | cons c cs ih =>
    rw [show planFold oR st (c :: cs) = (match planStep oR st c with
      | .error e => .error e
      | .ok s2 => planFold oR s2 cs) from rfl] at h
    cases hstep : planStep oR st c with
    | error e => rw [hstep] at h; exact absurd h (by simp)
    | ok s2 =>
      rw [hstep] at h
      exact ih s2 h (planStep_mono oR st s2 c k hstep hk)

theorem planFold_not_start (oR : Path) (l : List Contrib) (st st2 : PlanState)
    (h : planFold oR st l = .ok st2) : ∀ c ∈ l, ¬ pairMem st (planKey oR c) := by
  induction l generalizing st with
  | nil => simp
  | cons c0 cs ih =>
    rw [show planFold oR st (c0 :: cs) = (match planStep oR st c0 with
      | .error e => .error e
      | .ok s2 => planFold oR s2 cs) from rfl] at h
    cases hstep : planStep oR st c0 with
    | error e => rw [hstep] at h; exact absurd h (by simp)
    | ok s2 =>
      rw [hstep] at h
      intro c hc
      rcases List.mem_cons.mp hc with rfl | hc2
      · exact (planStep_ok oR st s2 c hstep).2.1
      · intro hmem
        exact ih s2 h c hc2 (planStep_mono oR st s2 c0 _ hstep hmem)

theorem planFold_pairwise (oR : Path) (l : List Contrib) (st st2 : PlanState)
    (h : planFold oR st l = .ok st2) :
    List.Pairwise (fun a b => planKey oR a ≠ planKey oR b) l := by
  induction l generalizing st with
  | nil => simp
  | cons c0 cs ih =>
    rw [show planFold oR st (c0 :: cs) = (match planStep oR st c0 with
      | .error e => .error e
      | .ok s2 => planFold oR s2 cs) from rfl] at h
    cases hstep : planStep oR st c0 with
    | error e => rw [hstep] at h; exact absurd h (by simp)
    | ok s2 =>
      rw [hstep] at h
      refine List.pairwise_cons.mpr ⟨?_, ih s2 h⟩
      intro c hc heq
      have hnot := planFold_not_start oR cs s2 st2 h c hc
      have hin := planStep_adds oR st s2 c0 hstep
      rw [← heq] at hnot
      exact hnot hin

theorem rend_ne_nil (r : Path) (hr : r ≠ []) : rend r ≠ [] := by
  cases r with
  | nil => exact absurd rfl hr
  | cons s ss => simp [rend]

theorem isPre_of_both {α : Type} [DecidableEq α] (a b imp : List α)
    (ha : isPre a imp = true) (hb : isPre b imp = true) (hlen : a.length ≤ b.length) :
    isPre a b = true := by
  rw [isPre_iff_take] at ha hb
  refine (isPre_iff_take a b).mpr ?_
  conv_lhs => rw [← hb]
  rw [List.take_take, min_eq_left hlen, ha]

theorem isPre_render (a b : Path) (hne_a : a ≠ []) (hpre : isPre a b = true)
    (hne : a ≠ b) : jsLt (renderAbs a) (renderAbs b) = true := by
  obtain ⟨r, rfl⟩ := (isPre_iff_append a b).mp hpre
  have hr : r ≠ [] := by
    rintro rfl
    simp at hne
  have hb_ne : (a ++ r) ≠ [] := by simp [hne_a]
  unfold renderAbs
  rw [if_neg hne_a, if_neg hb_ne, rend_append]
  apply isPre_jsLt
  · exact (isPre_iff_append _ _).mpr ⟨rend r, rfl⟩
  · intro hh
    have hlen := congrArg List.length hh
    rw [List.length_append] at hlen
    have h0 : (rend r).length = 0 := by omega
    rw [List.length_eq_zero] at h0
    exact rend_ne_nil r hr h0

theorem resolve_mkLit (iod target : Path) (htgt : WfPath target) (lit : List Char)
    (h : mkLit (relative iod target) = some lit) : resolveSpec iod lit = target := by
  have hsegs := relative_segs iod target htgt
  have hnoslash : ∀ s ∈ relative iod target, '/' ∉ s := fun s hs => (hsegs s hs).2
  unfold mkLit at h
  by_cases hs : renderRel (relative iod target) = []
  · rw [if_pos hs] at h
    exact absurd h (by simp)
  · rw [if_neg hs] at h
    injection h with h2
    have hpne : relative iod target ≠ [] := by
      intro hp
      rw [hp] at hs
      exact hs rfl
    have hsplit : splitSlash (renderRel (relative iod target)) = relative iod target :=
      splitSlash_renderRel _ hpne hnoslash
    by_cases hh : (renderRel (relative iod target)).head? = some '.'
    · rw [if_pos hh] at h2
      subst h2
      unfold resolveSpec
      rw [hsplit, joinRel_relative iod target htgt]
    · rw [if_neg hh] at h2
      subst h2
      unfold resolveSpec
      rw [splitSlash_dotslash, hsplit, joinRel_cons,
        show joinStep iod ['.'] = iod from by
          rw [show (['.'] : Seg) = str "." from rfl, joinStep_dot],
        joinRel_relative iod target htgt]

/-- C2: the source classifies an input as a `File` root via
`[".ts", "tsx"].includes(path.extname(p))`, but `path.extname` always
returns the extension with its leading dot, so a path ending in ".tsx"
(extension ".tsx", a recognized source extension) is classified as a
`Directory` root, contrary to the claim; globbing a `.tsx` file as a
directory yields nothing, so the file is silently dropped. A ".ts" path is
classified as a `File` root as claimed. -/
theorem c2_tsx_misclassified :
    extnamePath (strp "/a/b.tsx") = str ".tsx" ∧
    isFileRoot (strp "/a/b.tsx") = false ∧
    isFileRoot (strp "/a/b.ts") = true ∧
    contribs [strp "/a/b.tsx"] (fun _ => []) = [] :=
  ⟨by decide, by decide, by decide, by decide⟩

/-- C8 counterexample: for output directories out/a and out/a/b the
Directory Materializer issues exactly one creation call, but that call is
for out/a/b (with the appended separator), not for out/a as the claim
states: the scan skips an entry whose successor is its descendant, so the
ancestor is the one skipped. -/
theorem c8_counterexample :
    materialize [str "/out/a", str "/out/a/b"] = [str "/out/a/b/"] ∧
    str "/out/a/b/" ≠ str "/out/a/" ∧ str "/out/a/b/" ≠ str "/out/a" :=
  ⟨by decide, by decide, by decide⟩

/-- C8 (amended): for inputs yielding output directories out/a and out/a/b
the Materializer issues exactly one creation call, and that call is for
out/a/b (out/a is produced implicitly by recursive creation); in general,
after the trailing-separator append, lexicographic sort and adjacent-pair
descendant skipping, no issued creation call is a string prefix of another
issued call — in particular no issued directory's parent or ancestor is
also issued in the same batch. -/
theorem c8_materialize_minimal :
    materialize [str "/out/a", str "/out/a/b"] = [str "/out/a/b/"] ∧
    ∀ dirs a b, a ∈ materialize dirs → b ∈ materialize dirs → a ≠ b →
      isPre a b = false := by
  constructor
  · decide
  · intro dirs a b ha hb hne
    by_contra hpre
    rw [Bool.not_eq_false] at hpre
    unfold materialize at ha hb
    have hsorted := sorted_sortJs (dirs.map (fun d => d ++ ['/']))
    exact keepDirs_anti _ hsorted a b ha (keepDirs_subset _ b hb) hne hpre

/-- C8 witness: the general part of the theorem applied to two unrelated
directories. -/
theorem c8_materialize_minimal_w : isPre (str "/x/") (str "/y/") = false :=
  c8_materialize_minimal.2 [str "/x", str "/y"] (str "/x/") (str "/y/")
    (by decide) (by decide) (by decide)

/-- C6: when the planning prefix before a contribution succeeds and that
contribution's file is already in the file map, the whole compilation
aborts with the fatal duplicate-file error naming that file — the first
duplicate encountered — and the result carries no event trace at all: no
directory creation, no write, and no engine invocation. -/
theorem c6_duplicate_fails (paths : List Path) (outRoot : Path) (fs : Path → List Path)
    (diags : List Bool) (l1 l2 : List Contrib) (c : Contrib) (s1 : PlanState)
    (hsplit : contribs paths fs = l1 ++ c :: l2)
    (hfold : planFold outRoot ⟨[], [], []⟩ l1 = .ok s1)
    (hdup : (lookupA s1.files c.file).isSome) :
    compileModel paths outRoot fs diags = .error (.duplicate c.file) := by
  have hstep : planStep outRoot s1 c = .error (.duplicate c.file) := by
    unfold planStep
    rw [if_pos hdup]
  have hplan : planPaths paths outRoot fs = .error (.duplicate c.file) := by
    unfold planPaths
    rw [hsplit, planFold_append, hfold]
    show planFold outRoot s1 (c :: l2) = _
    rw [show planFold outRoot s1 (c :: l2) = (match planStep outRoot s1 c with
      | Except.error e => Except.error e
      | Except.ok s2 => planFold outRoot s2 l2) from rfl, hstep]
  unfold compileModel
  rw [hplan]

/-- C6 witness: the same file given twice as an input path. -/
theorem c6_duplicate_fails_w :
    compileModel [strp "/s/a.ts", strp "/s/a.ts"] (strp "/o") (fun _ => []) [] =
      .error (.duplicate (strp "/s/a.ts")) :=
  c6_duplicate_fails [strp "/s/a.ts", strp "/s/a.ts"] (strp "/o") (fun _ => []) []
    [⟨strp "/s", strp "/s/a.ts", false⟩] [] ⟨strp "/s", strp "/s/a.ts", false⟩
    ⟨[(strp "/s/a.ts", strp "/o")], [], [(strp "/o", [str "a.ts"])]⟩
    (by decide) (by decide) (by decide)

/-- C5: when any pre-emission diagnostic is classified as an error (nonzero
error count), `compile` returns the warning/error counts with an effect
trace containing only the engine invocation — no directory creation and no
write; and a planning error propagates as the error result, which carries
no effects at all, so partial output is never produced. -/
theorem c5_errors_abort (paths : List Path) (outRoot : Path) (fs : Path → List Path)
    (diags : List Bool) :
    (∀ st, planPaths paths outRoot fs = .ok st → (processDiags diags).errors ≠ 0 →
      compileModel paths outRoot fs diags = .ok (processDiags diags, [Event.engine])) ∧
    (∀ e, planPaths paths outRoot fs = .error e →
      compileModel paths outRoot fs diags = .error e) := by
  constructor
  · intro st hok hne
    unfold compileModel
    rw [hok]
    simp [hne]
  · intro e herr
    unfold compileModel
    rw [herr]

/-- C5 witness: a plan that succeeds but whose single diagnostic is an
error returns counts ⟨0, 1⟩ and performs no directory creation or write. -/
theorem c5_errors_abort_w :
    compileModel [strp "/s/a.ts"] (strp "/o") (fun _ => []) [true] =
      .ok (⟨0, 1⟩, [Event.engine]) := by
  have h := (c5_errors_abort [strp "/s/a.ts"] (strp "/o") (fun _ => []) [true]).1
    ⟨[(strp "/s/a.ts", strp "/o")], [], [(strp "/o", [str "a.ts"])]⟩ (by decide) (by decide)
  exact h

/-- C3 counterexample: /s1/a.ts (file root) and /s2/a.tsx (under directory
root /s2) are distinct inputs whose emitted outputs are both /o/a.js — an
emitted-output-basename collision — yet planning succeeds (the detector
compares source basenames "a.ts" vs "a.tsx") and the run writes /o/a.js
twice, overwriting the first output instead of failing before any I/O. -/
theorem c3_counterexample :
    compileModel [strp "/s1/a.ts", strp "/s2"] (strp "/o")
        (fun p => if p = strp "/s2" then [strp "/s2/a.tsx"] else []) [] =
      .ok (⟨0, 0⟩, [Event.engine, Event.mkdir (str "/o/"),
        Event.write (strp "/o/a.js"), Event.write (strp "/o/a.js")]) ∧
    strp "/s1/a.ts" ≠ strp "/s2/a.tsx" ∧
    jsFileOf (strp "/s1/a.ts") (strp "/o") = jsFileOf (strp "/s2/a.tsx") (strp "/o") :=
  ⟨by decide, by decide, by decide⟩

/-- C3 (amended): for every pair of distinct input files mapping to the
same output directory with the same full source basename, planning fails
with a fatal error before any directory is created or any file written (an
error result carries no effect trace). Distinct source basenames that
collide only after extension replacement (a.ts vs a.tsx) are not caught. -/
theorem c3_basename_collision (paths : List Path) (outRoot : Path) (fs : Path → List Path)
    (diags : List Bool) (c1 c2 : Contrib)
    (h1 : c1 ∈ contribs paths fs) (h2 : c2 ∈ contribs paths fs)
    (hne : c1.file ≠ c2.file)
    (hod : outDirOf outRoot c1 = outDirOf outRoot c2)
    (hbn : lastSeg c1.file = lastSeg c2.file) :
    ∃ e, compileModel paths outRoot fs diags = .error e := by
  cases hplan : planPaths paths outRoot fs with
  | error e =>
    refine ⟨e, ?_⟩
    unfold compileModel
    rw [hplan]
  | ok st =>
    exfalso
    have hpw := planFold_pairwise outRoot (contribs paths fs) ⟨[], [], []⟩ st hplan
    have hcc : c1 ≠ c2 := fun hh => hne (by rw [hh])
    have hsym : Symmetric (fun a b => planKey outRoot a ≠ planKey outRoot b) :=
      fun a b hab hh => hab hh.symm
    have := List.Pairwise.forall hsym hpw h1 h2 hcc
    exact this (by unfold planKey; rw [hod, hbn])

/-- C3 witness: two file roots with the same basename mapping to the same
output directory make planning fail. -/
theorem c3_basename_collision_w :
    ∃ e, compileModel [strp "/s1/a.ts", strp "/s2/a.ts"] (strp "/o") (fun _ => []) [] =
      .error e :=
  c3_basename_collision [strp "/s1/a.ts", strp "/s2/a.ts"] (strp "/o") (fun _ => []) []
    ⟨strp "/s1", strp "/s1/a.ts", false⟩ ⟨strp "/s2", strp "/s2/a.ts", false⟩
    (by decide) (by decide) (by decide) (by decide) (by decide)

/-- C7 counterexample: the specifier "." in /s/a.ts starts with '.', its
importee /s is resolved by the directory map (first of the three sources),
yet the token is returned unchanged — because the computed relative path
from /o to /o is the empty string and `if (!p) return token` fires. So
"unchanged in exactly two cases" is false: a resolved importee can also be
left unchanged. -/
theorem c7_counterexample :
    updateImport ⟨[(strp "/s/a.ts", strp "/o")], [(strp "/s", strp "/o")], []⟩
        (strp "/s/a.ts") (str ".") = none ∧
    (str ".").head? = some '.' ∧
    importeeTarget ⟨[(strp "/s/a.ts", strp "/o")], [(strp "/s", strp "/o")], []⟩
      (importeeOf (strp "/s/a.ts") (str ".")) = some (strp "/o") :=
  ⟨by decide, by decide, by decide⟩

/-- C7 (amended): the rewriter returns a specifier token unchanged in
exactly three cases: the specifier does not start with '.'; it starts with
'.' but none of the three sources (directory map, file map, path map)
computes a path for it; or a source resolves it but the computed relative
path is the empty string. No error is raised in any of them (the model is
a total function). -/
theorem c7_unchanged_cases (ctx : Ctx) (fn : Path) (spec : List Char) :
    updateImport ctx fn spec = none ↔
      (spec.head? ≠ some '.' ∨ computedPath ctx fn spec = none ∨
        ∃ p, computedPath ctx fn spec = some p ∧ renderRel p = []) := by
  unfold updateImport
  cases hcp : computedPath ctx fn spec with
  | none => simp [hcp]
  | some p =>
    have hdot : spec.head? = some '.' := by
      by_contra hd
      unfold computedPath at hcp
      rw [if_neg hd] at hcp
      exact absurd hcp (by simp)
    have hm : mkLit p = none ↔ renderRel p = [] := by
      unfold mkLit
      by_cases h : renderRel p = [] <;> simp [h]
    simp [hcp, hdot, hm]

/-- C9: every specifier the rewriter does rewrite starts with '.', because
'./' is prefixed whenever the computed relative path's string does not
already start with '.'; the literal is the computed relative path rendered
with '/' separators (the wire separator), so it is never emitted as a bare
package specifier. -/
theorem c9_emitted_form (ctx : Ctx) (fn : Path) (spec : List Char) (lit : List Char)
    (h : updateImport ctx fn spec = some lit) :
    lit.head? = some '.' ∧
    ∃ p, computedPath ctx fn spec = some p ∧
      lit = (if (renderRel p).head? = some '.' then renderRel p
        else '.' :: '/' :: renderRel p) := by
  unfold updateImport at h
  cases hcp : computedPath ctx fn spec with
  | none =>
    rw [hcp] at h
    exact absurd h (by simp)
  | some p =>
    rw [hcp] at h
    have h2 : mkLit p = some lit := h
    unfold mkLit at h2
    by_cases hs : renderRel p = []
    · rw [if_pos hs] at h2
      exact absurd h2 (by simp)
    · rw [if_neg hs] at h2
      injection h2 with h3
      refine ⟨?_, p, rfl, h3.symm⟩
      by_cases hh : (renderRel p).head? = some '.'
      · rw [← h3, if_pos hh]
        exact hh
      · rw [← h3, if_neg hh]
        rfl

/-- C9 witness: the rewrite of "./b" in /s/a.ts. -/
theorem c9_emitted_form_w :
    (str "./b").head? = some '.' ∧
    ∃ p, computedPath ⟨[(strp "/s/a.ts", strp "/o"), (strp "/s/b.ts", strp "/o")], [], []⟩
        (strp "/s/a.ts") (str "./b") = some p ∧
      str "./b" = (if (renderRel p).head? = some '.' then renderRel p
        else '.' :: '/' :: renderRel p) :=
  c9_emitted_form ⟨[(strp "/s/a.ts", strp "/o"), (strp "/s/b.ts", strp "/o")], [], []⟩
    (strp "/s/a.ts") (str "./b") (str "./b") (by decide)

/-- C10: when the importee path is not a known input directory but both
`importee + ".ts"` and `importee + ".tsx"` are compiled files, the rewriter
uses the output location of the ".ts" file: the `||` chain tries the ".ts"
lookup first, and the result is rewritten relative to the importer's output
directory from that file's output directory. -/
theorem c10_ts_before_tsx (ctx : Ctx) (fn : Path) (spec : List Char) (iod d1 d2 : Path)
    (hiod : lookupA ctx.files fn = some iod)
    (hdot : spec.head? = some '.')
    (hdir : lookupA ctx.directories (importeeOf fn spec) = none)
    (hts : lookupA ctx.files (addExt (importeeOf fn spec) (str ".ts")) = some d1)
    (_htsx : lookupA ctx.files (addExt (importeeOf fn spec) (str ".tsx")) = some d2) :
    importeeTarget ctx (importeeOf fn spec) =
      some (joinRel d1 [lastSeg (importeeOf fn spec)]) ∧
    updateImport ctx fn spec =
      mkLit (relative iod (joinRel d1 [lastSeg (importeeOf fn spec)])) := by
  have htgt : importeeTarget ctx (importeeOf fn spec) =
      some (joinRel d1 [lastSeg (importeeOf fn spec)]) := by
    unfold importeeTarget
    rw [hdir, hts]
    rfl
  refine ⟨htgt, ?_⟩
  unfold updateImport computedPath
  rw [if_pos hdot]
  simp only [hiod, Option.getD_some, htgt, Option.some_bind]

/-- C10 witness: both /s/x.ts and /s/x.tsx compiled; "./x" resolves through
the ".ts" entry. -/
theorem c10_ts_before_tsx_w :
    importeeTarget ⟨[(strp "/s/a.ts", strp "/o"), (strp "/s/x.ts", strp "/o"),
        (strp "/s/x.tsx", strp "/o")], [], []⟩ (importeeOf (strp "/s/a.ts") (str "./x")) =
      some (joinRel (strp "/o") [lastSeg (importeeOf (strp "/s/a.ts") (str "./x"))]) ∧
    updateImport ⟨[(strp "/s/a.ts", strp "/o"), (strp "/s/x.ts", strp "/o"),
        (strp "/s/x.tsx", strp "/o")], [], []⟩ (strp "/s/a.ts") (str "./x") =
      mkLit (relative (strp "/o")
        (joinRel (strp "/o") [lastSeg (importeeOf (strp "/s/a.ts") (str "./x"))])) :=
  c10_ts_before_tsx ⟨[(strp "/s/a.ts", strp "/o"), (strp "/s/x.ts", strp "/o"),
      (strp "/s/x.tsx", strp "/o")], [], []⟩ (strp "/s/a.ts") (str "./x")
    (strp "/o") (strp "/o") (strp "/o")
    (by decide) (by decide) (by decide) (by decide) (by decide)

/-- C1 counterexample: in /s/x/a.ts (root /s, output /o) the relative
specifier "../../s/x" resolves to the known input directory /s/x, whose
output location is /o/x — yet the rewriter leaves the token unchanged
(the computed relative path from /o/x to /o/x is empty and
`if (!p) return token` fires), and the resulting specifier, resolved from
the importer's output directory /o/x, points at /s/x, not at /o/x: the
round trip fails for an importee in the compiled set. -/
theorem c1_counterexample :
    importeeTarget ⟨[(strp "/s/x/a.ts", strp "/o/x")], [(strp "/s/x", strp "/o/x")], []⟩
        (importeeOf (strp "/s/x/a.ts") (str "../../s/x")) = some (strp "/o/x") ∧
    (str "../../s/x").head? = some '.' ∧
    updateImport ⟨[(strp "/s/x/a.ts", strp "/o/x")], [(strp "/s/x", strp "/o/x")], []⟩
      (strp "/s/x/a.ts") (str "../../s/x") = none ∧
    resolveSpec (strp "/o/x")
        ((updateImport ⟨[(strp "/s/x/a.ts", strp "/o/x")], [(strp "/s/x", strp "/o/x")], []⟩
          (strp "/s/x/a.ts") (str "../../s/x")).getD (str "../../s/x")) ≠ strp "/o/x" :=
  ⟨by decide, by decide, by decide, by decide⟩

/-- C1 (amended): for every relative specifier whose resolved importee path
is in the compiled set (directory map or file map) and for which the
rewriter emits a new literal, that literal, resolved against the importing
file's output directory, equals the importee's output location (the mapped
output directory for a directory importee, its output directory joined
with the importee's basename for a file importee): rewrite followed by
resolution round-trips to the actual new location. (When the computed
relative path is empty the token is left unchanged and no literal is
emitted.) -/
theorem c1_rewrite_roundtrip (ctx : Ctx) (fn : Path) (spec : List Char)
    (iod target : Path) (lit : List Char) (hctx : WfCtx ctx)
    (hiod : lookupA ctx.files fn = some iod)
    (htgt : importeeTarget ctx (importeeOf fn spec) = some target)
    (hlit : updateImport ctx fn spec = some lit) :
    resolveSpec iod lit = target := by
  have hdot : spec.head? = some '.' := by
    by_contra hd
    unfold updateImport computedPath at hlit
    rw [if_neg hd] at hlit
    exact absurd hlit (by simp)
  have hcp : computedPath ctx fn spec = some (relative iod target) := by
    unfold computedPath
    rw [if_pos hdot]
    simp only [hiod, Option.getD_some, htgt]
  have hmk : mkLit (relative iod target) = some lit := by
    unfold updateImport at hlit
    rw [hcp] at hlit
    exact hlit
  have hfn := hctx.1 _ (lookupA_mem _ _ _ hiod)
  have himp : WfPath (importeeOf fn spec) :=
    wf_joinRel _ _ (wf_dropLast _ hfn.1) (splitSlash_no_slash _)
  have htgtwf : WfPath target := wf_importeeTarget ctx _ target hctx himp htgt
  exact resolve_mkLit iod target htgtwf lit hmk

/-- C1 witness: "./b" in /s/a.ts rewrites to a literal that resolves from
/o to /o/b, the output location of /s/b.ts. -/
theorem c1_rewrite_roundtrip_w :
    resolveSpec (strp "/o") (str "./b") = strp "/o/b" :=
  c1_rewrite_roundtrip ⟨[(strp "/s/a.ts", strp "/o"), (strp "/s/b.ts", strp "/o")], [], []⟩
    (strp "/s/a.ts") (str "./b") (strp "/o") (strp "/o/b") (str "./b")
    (by decide) (by decide) (by decide) (by decide)

/-- C4 counterexample: with the table entry /ext mapped to /o and importer
output directory /o, the specifier "../ext" in /s/a.ts is resolved only by
the path map (entry /ext matches), but the rewritten path
`relative(/o, /ext + relative(/ext, /ext))` is the empty string, so
`if (!p) return token` leaves the token unchanged: the specifier is not
rewritten to that path, and the unchanged token resolves from /o to /ext,
not to the entry's mapped location /o. -/
theorem c4_counterexample :
    (str "../ext").head? = some '.' ∧
    importeeTarget ⟨[(strp "/s/a.ts", strp "/o")], [], [(strp "/ext", strp "/o")]⟩
      (importeeOf (strp "/s/a.ts") (str "../ext")) = none ∧
    matchStr (strp "/ext") (importeeOf (strp "/s/a.ts") (str "../ext")) = true ∧
    updateImport ⟨[(strp "/s/a.ts", strp "/o")], [], [(strp "/ext", strp "/o")]⟩
      (strp "/s/a.ts") (str "../ext") = none ∧
    resolveSpec (strp "/o")
        ((updateImport ⟨[(strp "/s/a.ts", strp "/o")], [], [(strp "/ext", strp "/o")]⟩
          (strp "/s/a.ts") (str "../ext")).getD (str "../ext")) ≠
      joinRel (strp "/o")
        (relative (strp "/ext") (importeeOf (strp "/s/a.ts") (str "../ext"))) :=
  ⟨by decide, by decide, by decide, by decide, by decide⟩

/-- C4 (amended): the path-map prefix test is segment-aligned (through the trailing
separator: /foo never matches /foobar/x), and for a relative specifier that
none of the compiled-set sources resolves, the scan of the descending-
sorted table picks the matching entry with the longest (lexicographically
greatest) `fromPrefix` that is a segment prefix of the importee; the
specifier is rewritten (via `mkLit`) to the path, relative to the
importer's output directory, of `toPrefix` joined with
`relative(fromPrefix, importee)`, and an emitted literal resolves from the
importer's output directory exactly to that joined path. -/
theorem c4_longest_prefix_wins :
    matchStr (strp "/foo") (strp "/foobar/x") = false ∧
    ∀ ctx fn spec iod f t, WfCtx ctx → PmSortedDesc ctx.pathMap →
      lookupA ctx.files fn = some iod →
      spec.head? = some '.' →
      importeeTarget ctx (importeeOf fn spec) = none →
      (f, t) ∈ ctx.pathMap → isPre f (importeeOf fn spec) = true →
      ∃ f0 t0, (f0, t0) ∈ ctx.pathMap ∧ isPre f0 (importeeOf fn spec) = true ∧
        (∀ f1 t1, (f1, t1) ∈ ctx.pathMap → isPre f1 (importeeOf fn spec) = true →
          f1.length ≤ f0.length) ∧
        computedPath ctx fn spec =
          some (relative iod (joinRel t0 (relative f0 (importeeOf fn spec)))) ∧
        updateImport ctx fn spec =
          mkLit (relative iod (joinRel t0 (relative f0 (importeeOf fn spec)))) ∧
        (∀ lit, updateImport ctx fn spec = some lit →
          resolveSpec iod lit = joinRel t0 (relative f0 (importeeOf fn spec))) := by
  refine ⟨by decide, ?_⟩
  intro ctx fn spec iod f t hctx hsort hiod hdot htnone hft hpre
  have hfn := hctx.1 _ (lookupA_mem _ _ _ hiod)
  have himp : WfPath (importeeOf fn spec) :=
    wf_joinRel _ _ (wf_dropLast _ hfn.1) (splitSlash_no_slash _)
  have hpm := hctx.2.2
  have hfwf := hpm _ hft
  have hmatch : matchStr f (importeeOf fn spec) = true :=
    (matchStr_iff f _ hfwf.1.1 himp hfwf.2).mpr hpre
  have hsome : (ctx.pathMap.find? (fun ft2 => matchStr ft2.1 (importeeOf fn spec))).isSome := by
    rw [List.find?_isSome]
    exact ⟨(f, t), hft, hmatch⟩
  obtain ⟨ft0, hfind⟩ := Option.isSome_iff_exists.mp hsome
  obtain ⟨hpred0, as, bs, hsplit, hprev⟩ := List.find?_eq_some.mp hfind
  have hft0mem : ft0 ∈ ctx.pathMap := by
    rw [hsplit]
    exact List.mem_append_right _ (List.mem_cons_self _ _)
  have hf0wf := hpm _ hft0mem
  have hpre0 : isPre ft0.1 (importeeOf fn spec) = true :=
    (matchStr_iff ft0.1 _ hf0wf.1.1 himp hf0wf.2).mp hpred0
  have hmax : ∀ f1 t1, (f1, t1) ∈ ctx.pathMap → isPre f1 (importeeOf fn spec) = true →
      f1.length ≤ ft0.1.length := by
    intro f1 t1 h1mem h1pre
    by_contra hlen
    push_neg at hlen
    have h1wf := hpm _ h1mem
    have hp01 : isPre ft0.1 f1 = true :=
      isPre_of_both ft0.1 f1 (importeeOf fn spec) hpre0 h1pre (le_of_lt hlen)
    have hne01 : ft0.1 ≠ f1 := by
      intro hh
      rw [hh] at hlen
      exact lt_irrefl _ hlen
    have hlt01 : jsLt (renderAbs ft0.1) (renderAbs f1) = true :=
      isPre_render _ _ hf0wf.2 hp01 hne01
    have h1match : matchStr f1 (importeeOf fn spec) = true :=
      (matchStr_iff f1 _ h1wf.1.1 himp h1wf.2).mpr h1pre
    have h1mem2 := h1mem
    rw [hsplit] at h1mem2
    rcases List.mem_append.mp h1mem2 with hin1 | hin2
    · have := hprev _ hin1
      rw [h1match] at this
      exact absurd this (by simp)
    · rcases List.mem_cons.mp hin2 with heq | hin3
      · exact hne01 (by rw [← heq])
      · have hsort2 := hsort
        rw [hsplit] at hsort2
        have hR : jsLt (renderAbs f1) (renderAbs ft0.1) = true := by
          rcases List.pairwise_append.mp hsort2 with ⟨-, hpair2, -⟩
          exact (List.pairwise_cons.mp hpair2).1 (f1, t1) hin3
        rw [jsLt_asymm _ _ hlt01] at hR
        exact absurd hR (by simp)
  have hcp : computedPath ctx fn spec =
      some (relative iod (joinRel ft0.2 (relative ft0.1 (importeeOf fn spec)))) := by
    unfold computedPath
    rw [if_pos hdot]
    simp only [hiod, Option.getD_some, htnone, hfind, Option.map_some']
  have hui : updateImport ctx fn spec =
      mkLit (relative iod (joinRel ft0.2 (relative ft0.1 (importeeOf fn spec)))) := by
    unfold updateImport
    rw [hcp]
    rfl
  have htgtwf : WfPath (joinRel ft0.2 (relative ft0.1 (importeeOf fn spec))) := by
    rw [relative_of_isPre _ _ hpre0, joinRel_plain _ _ ?_]
    · intro s hsm
      rcases List.mem_append.mp hsm with hs1 | hs2
      · exact hf0wf.1.2 s hs1
      · exact himp s (List.drop_subset _ _ hs2)
    · intro s hsm
      have := himp s (List.drop_subset _ _ hsm)
      exact ⟨this.1, this.2.2.1, this.2.2.2⟩
  refine ⟨ft0.1, ft0.2, Prod.mk.eta ▸ hft0mem, hpre0, hmax, hcp, hui, ?_⟩
  intro lit hl
  rw [hui] at hl
  exact resolve_mkLit iod _ htgtwf lit hl

/-- C4 witness: with entries /ext/sub and /ext (descending order), the
specifier "../ext/sub/m" in /s/a.ts matches the longer prefix /ext/sub and
the emitted literal resolves from /o to /lib/sub/m. -/
theorem c4_longest_prefix_wins_w :
    ∃ f0 t0,
      (f0, t0) ∈ (⟨[(strp "/s/a.ts", strp "/o")], [],
        [(strp "/ext/sub", strp "/lib/sub"), (strp "/ext", strp "/lib")]⟩ : Ctx).pathMap ∧
      isPre f0 (importeeOf (strp "/s/a.ts") (str "../ext/sub/m")) = true ∧
      (∀ f1 t1, (f1, t1) ∈ (⟨[(strp "/s/a.ts", strp "/o")], [],
          [(strp "/ext/sub", strp "/lib/sub"), (strp "/ext", strp "/lib")]⟩ : Ctx).pathMap →
        isPre f1 (importeeOf (strp "/s/a.ts") (str "../ext/sub/m")) = true →
        f1.length ≤ f0.length) ∧
      computedPath ⟨[(strp "/s/a.ts", strp "/o")], [],
          [(strp "/ext/sub", strp "/lib/sub"), (strp "/ext", strp "/lib")]⟩
          (strp "/s/a.ts") (str "../ext/sub/m") =
        some (relative (strp "/o")
          (joinRel t0 (relative f0 (importeeOf (strp "/s/a.ts") (str "../ext/sub/m"))))) ∧
      updateImport ⟨[(strp "/s/a.ts", strp "/o")], [],
          [(strp "/ext/sub", strp "/lib/sub"), (strp "/ext", strp "/lib")]⟩
          (strp "/s/a.ts") (str "../ext/sub/m") =
        mkLit (relative (strp "/o")
          (joinRel t0 (relative f0 (importeeOf (strp "/s/a.ts") (str "../ext/sub/m"))))) ∧
      (∀ lit, updateImport ⟨[(strp "/s/a.ts", strp "/o")], [],
          [(strp "/ext/sub", strp "/lib/sub"), (strp "/ext", strp "/lib")]⟩
          (strp "/s/a.ts") (str "../ext/sub/m") = some lit →
        resolveSpec (strp "/o") lit =
          joinRel t0 (relative f0 (importeeOf (strp "/s/a.ts") (str "../ext/sub/m")))) :=
  c4_longest_prefix_wins.2
    ⟨[(strp "/s/a.ts", strp "/o")], [],
      [(strp "/ext/sub", strp "/lib/sub"), (strp "/ext", strp "/lib")]⟩
    (strp "/s/a.ts") (str "../ext/sub/m") (strp "/o") (strp "/ext") (strp "/lib")
    (by decide) (by decide) (by decide) (by decide) (by decide) (by decide) (by decide)

end Tisk
